import Mathlib

/-!
Shallow embedding of the four Python scripts of the rust-fitsio repository
that this development verifies:

* src/fitsio/docker/build_all.py      (namespace BuildAll)
* src/filegen/vector_columns.py       (namespace VectorColumns)
* src/fitsiobenchmark/generate_data.py (namespace GenerateData)
* src/fitsiobenchmark/python_run.py   (namespace PythonRun)

External effects are made explicit: file writes become lists of
path/content pairs, subprocess exit statuses become oracles indexed by the
invocation number, random draws become input lists constrained by the
documented range of the numpy generator that produced them, and the wall
clock becomes a stream of readings. Machine floats are modelled by exact
rationals.
-/

namespace Py

/-- The Python builtin min applied to a list of numbers (total: the empty
list, on which Python raises, is mapped to 0; every use below is on a
nonempty list). -/
def listMin : List ℚ → ℚ
  | [] => 0
  | x :: xs => xs.foldl min x

/-- The Python builtin max applied to a list of numbers (total as in
listMin). -/
def listMax : List ℚ → ℚ
  | [] => 0
  | x :: xs => xs.foldl max x

end Py

namespace BuildAll

/-- The VERSIONS list of build_all.py, verbatim; note that 3080 appears
twice. -/
def VERSIONS : List String :=
  ["3080", "3080", "3090", "3130", "3140", "3181", "3200", "3210", "3230",
   "3240", "3250", "3260", "3270", "3280", "3290", "3300", "3310", "3330",
   "3340", "3350", "3360", "3370", "3380", "3390", "3410", "3420"]

/-- TEMPLATE_URL.format, substituting the version into the fixed download
URL template. -/
def TEMPLATE_URL (version : String) : String :=
  "ftp://heasarc.gsfc.nasa.gov/software/fitsio/c/cfitsio" ++ version
    ++ ".tar.gz"

/-- The per-version output filename: the literal Dockerfile. followed by
the version. -/
def out_filename (version : String) : String := "Dockerfile." ++ version

/-- One piece of the Dockerfile template read from Dockerfile.template:
literal text, or one of the two placeholders that template.format fills
with the url and version keyword arguments. The template file itself is
not part of the repository, so its content stays abstract. -/
inductive TPart
  | lit (s : String)
  | urlHole
  | versionHole
deriving DecidableEq

/-- Substitution of one template piece. -/
def renderPart (url version : String) : TPart → String
  | TPart.lit s => s
  | TPart.urlHole => url
  | TPart.versionHole => version

/-- template.format with the url and version keyword substitutions. -/
def formatTemplate (t : List TPart) (url version : String) : String :=
  String.join (t.map (renderPart url version))

/-- The text rendered for one version: template.format applied to the
interpolated URL for that version and the version itself. -/
def rendered (t : List TPart) (version : String) : String :=
  formatTemplate t (TEMPLATE_URL version) version

/-- The file write performed by one iteration of the generation loop:
target path and content. -/
def gen_write (t : List TPart) (version : String) : String × String :=
  (out_filename version, rendered t version)

/-- The generation loop of build_all.py. Each iteration renders and
writes the Dockerfile for its version and then runs the external build
command; buildExit i is the exit status of the build command of iteration
i. Returns the file writes performed, in order, paired with true when the
loop ran to completion and false when a non-zero build exit raised
sp.CalledProcessError out of the script (the write of that iteration has
already happened; no later iteration runs). -/
def genLoop (t : List TPart) (buildExit : Nat → Nat) :
    List String → Nat → List (String × String) × Bool
  | [], _ => ([], true)
  | v :: rest, i =>
    if buildExit i = 0 then
      let r := genLoop t buildExit rest (i + 1)
      (gen_write t v :: r.1, r.2)
    else
      ([gen_write t v], false)

/-- The chunk appended to results.txt for one version: the try/except
around sp.check_call writes version followed by 0 on a caught non-zero
exit, and the else branch writes version followed by 1 on a zero exit. -/
def result_entry (version : String) (exitCode : Nat) : String :=
  if exitCode = 0 then version ++ " 1\n" else version ++ " 0\n"

/-- The run loop of build_all.py: a second pass over VERSIONS that runs
the run command per version and appends one results.txt entry per
version, in list order; runExit i is the exit status of the run command
of iteration i. -/
def runLoop (runExit : Nat → Nat) : List String → Nat → List String
  | [], _ => []
  | v :: rest, i => result_entry v (runExit i) :: runLoop runExit rest (i + 1)

/-- The whole driver: the generation phase over VERSIONS, then, only when
it completed, the run phase writing results.txt. Returns the Dockerfile
writes and the results.txt entries; none means the script aborted in the
generation phase, before results.txt was even opened. -/
def driver (t : List TPart) (buildExit runExit : Nat → Nat) :
    List (String × String) × Option (List String) :=
  let g := genLoop t buildExit VERSIONS 0
  (g.1, if g.2 then some (runLoop runExit VERSIONS 0) else none)

/-- The distinct output paths of a list of file writes: a later write to
an already written path overwrites, leaving a single file. -/
def distinct_paths (writes : List (String × String)) : List String :=
  (writes.map Prod.fst).dedup

/-- A concrete example template, used for closed evaluations. -/
def tEx : List TPart :=
  [TPart.lit "FROM ubuntu\nADD ", TPart.urlHole,
   TPart.lit "\nENV VERSION=", TPart.versionHole, TPart.lit "\n"]

end BuildAll

namespace VectorColumns

/-- One cell of the binary table: a string, a floating value (modelled as
an exact rational), or an integer vector. -/
inductive Cell
  | str (s : String)
  | flt (q : ℚ)
  | ints (v : List Int)
deriving DecidableEq

/-- fits.Column: column name, FITS format code, backing array. -/
structure Column where
  name : String
  format : String
  array : List Cell
deriving DecidableEq

/-- fits.BinTableHDU: extension name and column definitions. -/
structure BinTableHDU where
  hduName : String
  columns : List Column
deriving DecidableEq

/-- The backing array a1 of the target column. -/
def a1 : List Cell := [Cell.str "NGC1001", Cell.str "NGC1002", Cell.str "NGC1003"]

/-- The backing array a2 of the V_mag column; the literals 11.1, 12.3 and
15.2 as exact rationals. -/
def a2 : List Cell := [Cell.flt (111 / 10), Cell.flt (123 / 10), Cell.flt (152 / 10)]

/-- The backing array a3 of the index column. -/
def a3 : List Cell := [Cell.ints [1, 2], Cell.ints [3, 4], Cell.ints [5, 6]]

/-- gen_file of vector_columns.py: builds the three columns and the info
binary table HDU from fixed literals. It takes no runtime input; the Unit
argument marks one invocation. -/
def gen_file (_invocation : Unit) : BinTableHDU :=
  ⟨"info",
   [⟨"target", "20A", a1⟩, ⟨"V_mag", "E", a2⟩, ⟨"index", "2K", a3⟩]⟩

/-- Modelled from the spec: BinTableHDU.writeto with overwrite enabled,
an astropy library call that is not part of this repository. Per the spec
(section 4.1) it writes the table to the given path, overwriting any
existing file, and any I/O failure propagates; a successful write is the
some case. The filesystem is a path-to-HDU association list. -/
def writeto (fs : List (String × BinTableHDU)) (path : String)
    (hdu : BinTableHDU) : Option (List (String × BinTableHDU)) :=
  some ((path, hdu) :: fs.filter (fun e => e.1 ≠ path))

/-- Look up the file at a path in the modelled filesystem. -/
def read_file (fs : List (String × BinTableHDU)) (path : String) :
    Option BinTableHDU :=
  (fs.find? (fun e => e.1 == path)).map Prod.snd

end VectorColumns

namespace GenerateData

/-- BIAS_LEVEL of generate_data.py. -/
def BIAS_LEVEL : Int := 2000

/-- RAW_IMAGE_SHAPE of generate_data.py. -/
def RAW_IMAGE_SHAPE : Nat × Nat := (2048, 2048)

/-- Contract of one value of np.random.randint(lo, hi, size=shape): an
integer (denominator 1) in the half-open range from lo to hi. -/
def isRandint (lo hi : Int) (x : ℚ) : Prop :=
  x.den = 1 ∧ lo ≤ x.num ∧ x.num < hi

/-- Contract of one value of np.random.uniform(lo, hi, size=shape): a
draw in the half-open range from lo to hi. -/
def isUniform (lo hi : ℚ) (x : ℚ) : Prop := lo ≤ x ∧ x < hi

/-- The shape after the optional overscan extension by 40 rows. -/
def effShape (overscan : Bool) (shape : Nat × Nat) : Nat × Nat :=
  if overscan then (shape.1 + 40, shape.2) else shape

/-- Number of pixels of a shape; frames are flattened to lists. -/
def numPixels (s : Nat × Nat) : Nat := s.1 * s.2

/-- The contract of the random draws generate_frame makes, branch by
branch, for a given effective shape: main is the base draw of that size
and bias the additive draw of the same size made only in the add_bias
branches. The ranges are those of the randint and uniform calls in the
source. -/
def ValidDraws (intdata add_bias : Bool) (shape : Nat × Nat)
    (main bias : List ℚ) : Prop :=
  main.length = numPixels shape ∧
  (add_bias = true →
     bias.length = numPixels shape ∧ ∀ x ∈ bias, isRandint 0 BIAS_LEVEL x) ∧
  (match intdata, add_bias with
   | true, true => ∀ x ∈ main, isRandint BIAS_LEVEL (2 ^ 16 - 1) x
   | true, false => ∀ x ∈ main, isRandint 0 (2 ^ 16 - 1) x
   | false, true => ∀ x ∈ main, isUniform (BIAS_LEVEL : ℚ) (2 ^ 16 - 1) x
   | false, false => ∀ x ∈ main, isUniform 0 (2 ^ 16 - 1) x)

/-- data.ptp(): the peak-to-peak spread of the frame. -/
def ptp (l : List ℚ) : ℚ := Py.listMax l - Py.listMin l

/-- The normalise branch of generate_frame: subtract the minimum, divide
by the peak-to-peak spread r, scale by 0.3 and shift by 0.7. The source
has no guard on r; the division by a zero spread, which in numpy floats
yields NaN pixels, is the none case. -/
def rescale (data : List ℚ) : Option (List ℚ) :=
  let r := ptp data
  if r = 0 then none
  else
    some (data.map (fun x =>
      (x - Py.listMin data) / r * (3 / 10) + 7 / 10))

/-- generate_frame of generate_data.py, with the random draws passed in
as inputs (main for the base draw, bias for the additive draw used when
add_bias is set). intdata and the shape select which numpy call sizes and
bounds the draws, which ValidDraws records; the value computation is:
add the bias draw elementwise when add_bias, then rescale when normalise.
The written frame is the returned list; none is the unguarded division by
a zero spread in the normalise branch. -/
def generate_frame (_intdata _overscan add_bias norm : Bool)
    (_shape : Nat × Nat) (main bias : List ℚ) : Option (List ℚ) :=
  let data := if add_bias then List.zipWith (fun x b => x + b) main bias else main
  if norm then rescale data else some data

/-- generate_bias: generate_frame with shape RAW_IMAGE_SHAPE and intdata
only; overscan, add_bias and normalise keep their False defaults. -/
def generate_bias (main bias : List ℚ) : Option (List ℚ) :=
  generate_frame true false false false RAW_IMAGE_SHAPE main bias

/-- generate_dark: continuous data, no overscan, no bias, no rescale. -/
def generate_dark (main bias : List ℚ) : Option (List ℚ) :=
  generate_frame false false false false RAW_IMAGE_SHAPE main bias

/-- generate_flat: continuous data, no overscan, normalise enabled. -/
def generate_flat (main bias : List ℚ) : Option (List ℚ) :=
  generate_frame false false false true RAW_IMAGE_SHAPE main bias

/-- generate_image: continuous data, no overscan, add_bias enabled. -/
def generate_image (main bias : List ℚ) : Option (List ℚ) :=
  generate_frame false false true false RAW_IMAGE_SHAPE main bias

/-- The union of the two draw ranges the bias preset could involve: the
additive bias range from 0 to BIAS_LEVEL and the readout range from 0 to
the 16-bit limit. -/
def combined_range (x : ℚ) : Prop :=
  (0 ≤ x ∧ x < (BIAS_LEVEL : Int)) ∨ (0 ≤ x ∧ x < 2 ^ 16 - 1)

/-- A constant frame of the raw shape, used for closed evaluations of the
degenerate zero-spread case. -/
def constFrame : List ℚ := List.replicate (2048 * 2048) 1000

/-- A nonconstant frame of the raw shape used for closed evaluations: one
zero pixel followed by constant pixels. -/
def stepFrame : List ℚ := 0 :: List.replicate (2048 * 2048 - 1) 1000

/-- A saturated base draw for the image preset, used for closed
evaluations: every pixel at 65000. -/
def hotMain : List ℚ := List.replicate (2048 * 2048) 65000

/-- A maximal bias draw for the image preset, used for closed
evaluations: every pixel at 1999. -/
def hotBias : List ℚ := List.replicate (2048 * 2048) 1999

end GenerateData

namespace PythonRun

/-- The duration recorded by iteration i of the timing loop: the loop
makes two time.time readings per iteration, start then end, and appends
their difference; clock j is the j-th reading the process makes. -/
def sample (clock : Nat → ℚ) (i : Nat) : ℚ := clock (2 * i + 1) - clock (2 * i)

/-- The times list built by timeit: one sample per iteration, n
iterations in order. -/
def timesList (clock : Nat → ℚ) (n : Nat) : List ℚ :=
  (List.range n).map (sample clock)

/-- timeit of python_run.py: run the measured function n times and return
the minimum of the recorded per-iteration durations. -/
def timeit (clock : Nat → ℚ) (n : Nat) : ℚ := Py.listMin (timesList clock n)

/-- The main-guard invocation timeit(main, n=64): the single reported
value. -/
def min_time (clock : Nat → ℚ) : ℚ := timeit clock 64

end PythonRun

namespace BuildAll

/-- When every build exits zero, the generation loop performs exactly the
writes of the version list, in order, and runs to completion. -/
theorem genLoop_all_zero (t : List TPart) (buildExit : Nat → Nat)
    (h : ∀ i, buildExit i = 0) :
    ∀ (vs : List String) (i : Nat),
      genLoop t buildExit vs i = (vs.map (gen_write t), true) := by
  intro vs
  induction vs with
  | nil => intro i; rfl
  | cons v rest ih =>
    intro i
    simp [genLoop, h i, ih (i + 1)]

/-- When the first failing build of the remaining list is k entries in,
the loop writes exactly the first k + 1 files and stops. -/
theorem genLoop_first_fail (t : List TPart) (buildExit : Nat → Nat) :
    ∀ (vs : List String) (i k : Nat), k < vs.length →
      buildExit (i + k) ≠ 0 → (∀ j, j < k → buildExit (i + j) = 0) →
      genLoop t buildExit vs i = ((vs.take (k + 1)).map (gen_write t), false) := by
  intro vs
  induction vs with
  | nil => intro i k hk; simp at hk
  | cons v rest ih =>
    intro i k hk hfail hok
    cases k with
    | zero =>
      have hb : buildExit i ≠ 0 := by simpa using hfail
      simp [genLoop, hb]
    | succ k =>
      have h0 : buildExit i = 0 := by simpa using hok 0 (Nat.succ_pos k)
      have hfail2 : buildExit (i + 1 + k) ≠ 0 := by
        rw [show i + 1 + k = i + (k + 1) from by omega]; exact hfail
      have hok2 : ∀ j, j < k → buildExit (i + 1 + j) = 0 := by
        intro j hj
        rw [show i + 1 + j = i + (j + 1) from by omega]
        exact hok (j + 1) (Nat.succ_lt_succ hj)
      have ih2 := ih (i + 1) k (by simpa using Nat.lt_of_succ_lt_succ hk)
        hfail2 hok2
      simp [genLoop, h0, ih2]

/-- The run loop writes one entry per remaining version. -/
theorem runLoop_length (runExit : Nat → Nat) :
    ∀ (vs : List String) (i : Nat), (runLoop runExit vs i).length = vs.length := by
  intro vs
  induction vs with
  | nil => intro i; rfl
  | cons v rest ih => intro i; simp [runLoop, ih (i + 1)]

/-- The j-th entry of the run loop output is the entry of the j-th
remaining version, formatted with the exit status of iteration i + j. -/
theorem runLoop_getElem (runExit : Nat → Nat) :
    ∀ (vs : List String) (i j : Nat),
      (runLoop runExit vs i)[j]? =
        vs[j]?.map (fun v => result_entry v (runExit (i + j))) := by
  intro vs
  induction vs with
  | nil => intro i j; simp [runLoop]
  | cons v rest ih =>
    intro i j
    cases j with
    | zero => simp [runLoop]
    | succ j =>
      simp only [runLoop, List.getElem?_cons_succ]
      rw [ih (i + 1) j, show i + 1 + j = i + (j + 1) from by omega]

end BuildAll

/-- C1 counterexample: with the example template and every build exiting
zero, the generation loop performs 26 writes for the 26 version entries,
but the first two writes (the duplicated entry 3080) target one and the
same path Dockerfile.3080, so only 25 distinct output files exist: the
driver does not produce two files for the duplicated entry, refuting one
output file per version entry. -/
theorem one_file_per_entry_cex :
    BuildAll.VERSIONS.length = 26 ∧
    (BuildAll.genLoop BuildAll.tEx (fun _ => 0) BuildAll.VERSIONS 0).1.length = 26 ∧
    ((BuildAll.genLoop BuildAll.tEx (fun _ => 0) BuildAll.VERSIONS 0).1.map
        Prod.fst)[0]? = some "Dockerfile.3080" ∧
    ((BuildAll.genLoop BuildAll.tEx (fun _ => 0) BuildAll.VERSIONS 0).1.map
        Prod.fst)[1]? = some "Dockerfile.3080" ∧
    (BuildAll.distinct_paths
        (BuildAll.genLoop BuildAll.tEx (fun _ => 0) BuildAll.VERSIONS 0).1).length
      = 25 := by
  have h := BuildAll.genLoop_all_zero BuildAll.tEx (fun _ => 0) (fun _ => rfl)
    BuildAll.VERSIONS 0
  rw [h]
  refine ⟨?_, ?_, ?_, ?_, ?_⟩
  · decide
  · simp [BuildAll.VERSIONS]
  · decide
  · decide
  · decide

/-- C1 (amended): for every template and any build oracle that always
exits zero, the generation loop performs exactly one render-and-write per
version entry of VERSIONS, in list order; the duplicated entry 3080
yields two writes with identical rendered content, but both target the
same version-specific path, so the distinct output files correspond to
the distinct versions, not to the entries. -/
theorem one_write_per_entry (t : List BuildAll.TPart) (buildExit : Nat → Nat)
    (h : ∀ i, buildExit i = 0) :
    (BuildAll.genLoop t buildExit BuildAll.VERSIONS 0).1 =
      BuildAll.VERSIONS.map (BuildAll.gen_write t) ∧
    (BuildAll.genLoop t buildExit BuildAll.VERSIONS 0).1.length =
      BuildAll.VERSIONS.length ∧
    (BuildAll.genLoop t buildExit BuildAll.VERSIONS 0).1[0]? =
      some (BuildAll.out_filename "3080", BuildAll.rendered t "3080") ∧
    (BuildAll.genLoop t buildExit BuildAll.VERSIONS 0).1[1]? =
      some (BuildAll.out_filename "3080", BuildAll.rendered t "3080") ∧
    BuildAll.distinct_paths (BuildAll.genLoop t buildExit BuildAll.VERSIONS 0).1 =
      (BuildAll.VERSIONS.map BuildAll.out_filename).dedup := by
  have h0 := BuildAll.genLoop_all_zero t buildExit h BuildAll.VERSIONS 0
  rw [h0]
  refine ⟨rfl, by simp, rfl, rfl, ?_⟩
  simp [BuildAll.distinct_paths, BuildAll.gen_write, List.map_map]
  rfl

/-- Witness for the amended C1 at the example template and the all-zero
build oracle. -/
theorem one_write_per_entry_witness :
    (BuildAll.genLoop BuildAll.tEx (fun _ => 0) BuildAll.VERSIONS 0).1.length =
      BuildAll.VERSIONS.length :=
  (one_write_per_entry BuildAll.tEx (fun _ => 0) (fun _ => rfl)).2.1

/-- C2: for every run-phase exit oracle, the results file written by the
extended driver holds exactly one entry per version entry of VERSIONS,
in original list order with the duplicate included, and the j-th entry is
the j-th version followed by a space and 1 when the run command of
iteration j exited zero, by a space and 0 when its non-zero exit was
caught. -/
theorem results_one_line_per_version (runExit : Nat → Nat) :
    (BuildAll.runLoop runExit BuildAll.VERSIONS 0).length =
      BuildAll.VERSIONS.length ∧
    ∀ j : Nat,
      (BuildAll.runLoop runExit BuildAll.VERSIONS 0)[j]? =
        BuildAll.VERSIONS[j]?.map
          (fun v => if runExit j = 0 then v ++ " 1\n" else v ++ " 0\n") := by
  constructor
  · exact BuildAll.runLoop_length runExit BuildAll.VERSIONS 0
  · intro j
    have h := BuildAll.runLoop_getElem runExit BuildAll.VERSIONS 0 j
    simpa [BuildAll.result_entry] using h

/-- C3: failure semantics of the driver. With a build oracle whose first
non-zero exit is at entry k, the generation phase aborts there: exactly
the first k + 1 Dockerfile writes happen (the failing entry has already
been written, none after it) and no results file is written. With a build
oracle that always exits zero, the run phase completes for every run
oracle: results.txt is written with exactly one entry per version, and an
entry whose run command exits non-zero is recorded as a 0 entry while
every later version is still processed. -/
theorem failure_semantics (t : List BuildAll.TPart) (b r b2 r2 : Nat → Nat)
    (k : Nat) (hk : k < BuildAll.VERSIONS.length) (hfail : b k ≠ 0)
    (hok : ∀ j, j < k → b j = 0) (hb2 : ∀ i, b2 i = 0) :
    (BuildAll.driver t b r).2 = none ∧
    (BuildAll.driver t b r).1.length = k + 1 ∧
    (BuildAll.driver t b2 r2).2 = some (BuildAll.runLoop r2 BuildAll.VERSIONS 0) ∧
    (BuildAll.runLoop r2 BuildAll.VERSIONS 0).length = BuildAll.VERSIONS.length ∧
    (∀ j : Nat, r2 j ≠ 0 →
      (BuildAll.runLoop r2 BuildAll.VERSIONS 0)[j]? =
        BuildAll.VERSIONS[j]?.map (fun v => v ++ " 0\n")) := by
  have hgen := BuildAll.genLoop_first_fail t b BuildAll.VERSIONS 0 k hk
    (by simpa using hfail) (fun j hj => by simpa using hok j hj)
  have hgen2 := BuildAll.genLoop_all_zero t b2 hb2 BuildAll.VERSIONS 0
  refine ⟨?_, ?_, ?_, ?_, ?_⟩
  · simp [BuildAll.driver, hgen]
  · have hlen : k + 1 ≤ BuildAll.VERSIONS.length := hk
    simp [BuildAll.driver, hgen, List.length_take]
    omega
  · simp [BuildAll.driver, hgen2]
  · exact BuildAll.runLoop_length r2 BuildAll.VERSIONS 0
  · intro j hj
    have h := BuildAll.runLoop_getElem r2 BuildAll.VERSIONS 0 j
    simpa [BuildAll.result_entry, hj] using h

/-- Witness for C3: a build oracle failing first at entry 2 aborts the
driver after 3 writes with no results file, and the all-zero build oracle
with a run oracle failing only at entry 0 yields a full results file whose
entry 0 records a 0. -/
theorem failure_semantics_witness :
    (BuildAll.driver BuildAll.tEx (fun i => if i = 2 then 2 else 0)
        (fun _ => 0)).2 = none ∧
    (BuildAll.driver BuildAll.tEx (fun i => if i = 2 then 2 else 0)
        (fun _ => 0)).1.length = 3 ∧
    (BuildAll.runLoop (fun i => if i = 0 then 1 else 0) BuildAll.VERSIONS 0)[0]? =
      some "3080 0\n" := by
  have h := failure_semantics BuildAll.tEx (fun i => if i = 2 then 2 else 0)
    (fun _ => 0) (fun _ => 0) (fun i => if i = 0 then 1 else 0) 2
    (by decide) (by decide)
    (by intro j hj; simp [Nat.ne_of_lt hj]) (fun _ => rfl)
  refine ⟨h.1, h.2.1, ?_⟩
  have h5 := h.2.2.2.2 0 (by decide)
  simpa using h5

/-- C4: the table built by gen_file has exactly three columns, named
target, V_mag and index, with format codes 20A (20-character text), E
(single-precision float) and 2K (2-element 64-bit integer array), each
backed by exactly three rows; and invoking the generator twice on the
same output path succeeds both times for every starting filesystem, the
second write overwriting the first so the path holds the generated
table. -/
theorem vector_columns_schema_and_overwrite
    (fs : List (String × VectorColumns.BinTableHDU)) (path : String) :
    (VectorColumns.gen_file ()).columns.map VectorColumns.Column.name =
      ["target", "V_mag", "index"] ∧
    (VectorColumns.gen_file ()).columns.map VectorColumns.Column.format =
      ["20A", "E", "2K"] ∧
    (∀ c ∈ (VectorColumns.gen_file ()).columns, c.array.length = 3) ∧
    ∃ fs1 fs2,
      VectorColumns.writeto fs path (VectorColumns.gen_file ()) = some fs1 ∧
      VectorColumns.writeto fs1 path (VectorColumns.gen_file ()) = some fs2 ∧
      VectorColumns.read_file fs2 path = some (VectorColumns.gen_file ()) := by
  refine ⟨rfl, rfl, by decide, ?_⟩
  refine ⟨_, _, rfl, rfl, ?_⟩
  simp [VectorColumns.read_file, VectorColumns.writeto]

/-- C9: gen_file is deterministic — it takes no runtime input, so any two
invocations build tables that agree cell for cell, and the cells are the
fixed literals: the strings NGC1001, NGC1002, NGC1003; the floating
values 11.1, 12.3, 15.2; and the integer pairs (1,2), (3,4), (5,6). -/
theorem vector_columns_deterministic (u v : Unit) :
    VectorColumns.gen_file u = VectorColumns.gen_file v ∧
    (VectorColumns.gen_file u).columns.map VectorColumns.Column.array =
      [[VectorColumns.Cell.str "NGC1001", VectorColumns.Cell.str "NGC1002",
        VectorColumns.Cell.str "NGC1003"],
       [VectorColumns.Cell.flt (111 / 10), VectorColumns.Cell.flt (123 / 10),
        VectorColumns.Cell.flt (152 / 10)],
       [VectorColumns.Cell.ints [1, 2], VectorColumns.Cell.ints [3, 4],
        VectorColumns.Cell.ints [5, 6]]] :=
  ⟨rfl, rfl⟩

namespace Py

/-- Folding min never rises above the initial value. -/
theorem foldl_min_le_init (l : List ℚ) : ∀ a : ℚ, l.foldl min a ≤ a := by
  induction l with
  | nil => intro a; simp
  | cons x xs ih =>
    intro a
    calc (x :: xs).foldl min a = xs.foldl min (min a x) := rfl
    _ ≤ min a x := ih (min a x)
    _ ≤ a := min_le_left a x

/-- Folding min never rises above any list element. -/
theorem foldl_min_le_mem (l : List ℚ) :
    ∀ (a x : ℚ), x ∈ l → l.foldl min a ≤ x := by
  induction l with
  | nil => intro a x hx; simp at hx
  | cons y ys ih =>
    intro a x hx
    rcases List.mem_cons.mp hx with h | h
    · subst h
      calc (x :: ys).foldl min a = ys.foldl min (min a x) := rfl
      _ ≤ min a x := foldl_min_le_init ys (min a x)
      _ ≤ x := min_le_right a x
    · exact ih (min a y) x h

/-- listMin is a lower bound of the list. -/
theorem listMin_le (l : List ℚ) (x : ℚ) (hx : x ∈ l) : listMin l ≤ x := by
  cases l with
  | nil => simp at hx
  | cons y ys =>
    rcases List.mem_cons.mp hx with h | h
    · subst h; exact foldl_min_le_init ys x
    · exact foldl_min_le_mem ys y x h

/-- Folding min returns the initial value or a list element. -/
theorem foldl_min_eq_or_mem (l : List ℚ) :
    ∀ a : ℚ, l.foldl min a = a ∨ l.foldl min a ∈ l := by
  induction l with
  | nil => intro a; left; rfl
  | cons x xs ih =>
    intro a
    rcases ih (min a x) with h | h
    · rcases min_choice a x with h2 | h2
      · left
        show xs.foldl min (min a x) = a
        rw [h, h2]
      · right
        show xs.foldl min (min a x) ∈ x :: xs
        rw [h, h2]
        exact List.mem_cons_self x xs
    · right
      exact List.mem_cons_of_mem x h

/-- listMin of a nonempty list is one of its elements. -/
theorem listMin_mem (l : List ℚ) (h : l ≠ []) : listMin l ∈ l := by
  cases l with
  | nil => exact absurd rfl h
  | cons x xs =>
    rcases foldl_min_eq_or_mem xs x with h2 | h2
    · show xs.foldl min x ∈ x :: xs
      rw [h2]
      exact List.mem_cons_self x xs
    · exact List.mem_cons_of_mem x h2

/-- Folding max never falls below the initial value. -/
theorem foldl_max_ge_init (l : List ℚ) : ∀ a : ℚ, a ≤ l.foldl max a := by
  induction l with
  | nil => intro a; simp
  | cons x xs ih =>
    intro a
    calc a ≤ max a x := le_max_left a x
    _ ≤ xs.foldl max (max a x) := ih (max a x)
    _ = (x :: xs).foldl max a := rfl

/-- Folding max never falls below any list element. -/
theorem foldl_max_ge_mem (l : List ℚ) :
    ∀ (a x : ℚ), x ∈ l → x ≤ l.foldl max a := by
  induction l with
  | nil => intro a x hx; simp at hx
  | cons y ys ih =>
    intro a x hx
    rcases List.mem_cons.mp hx with h | h
    · subst h
      calc x ≤ max a x := le_max_right a x
      _ ≤ ys.foldl max (max a x) := foldl_max_ge_init ys (max a x)
      _ = (x :: ys).foldl max a := rfl
    · exact ih (max a y) x h

/-- listMax is an upper bound of the list. -/
theorem listMax_ge (l : List ℚ) (x : ℚ) (hx : x ∈ l) : x ≤ listMax l := by
  cases l with
  | nil => simp at hx
  | cons y ys =>
    rcases List.mem_cons.mp hx with h | h
    · subst h; exact foldl_max_ge_init ys x
    · exact foldl_max_ge_mem ys y x h

/-- Folding max returns the initial value or a list element. -/
theorem foldl_max_eq_or_mem (l : List ℚ) :
    ∀ a : ℚ, l.foldl max a = a ∨ l.foldl max a ∈ l := by
  induction l with
  | nil => intro a; left; rfl
  | cons x xs ih =>
    intro a
    rcases ih (max a x) with h | h
    · rcases max_choice a x with h2 | h2
      · left
        show xs.foldl max (max a x) = a
        rw [h, h2]
      · right
        show xs.foldl max (max a x) ∈ x :: xs
        rw [h, h2]
        exact List.mem_cons_self x xs
    · right
      exact List.mem_cons_of_mem x h

/-- listMax of a nonempty list is one of its elements. -/
theorem listMax_mem (l : List ℚ) (h : l ≠ []) : listMax l ∈ l := by
  cases l with
  | nil => exact absurd rfl h
  | cons x xs =>
    rcases foldl_max_eq_or_mem xs x with h2 | h2
    · show xs.foldl max x ∈ x :: xs
      rw [h2]
      exact List.mem_cons_self x xs
    · exact List.mem_cons_of_mem x h2

/-- Folding min over a list of copies of c, starting at c, stays at c. -/
theorem foldl_min_all_eq (c : ℚ) :
    ∀ l : List ℚ, (∀ x ∈ l, x = c) → l.foldl min c = c := by
  intro l
  induction l with
  | nil => intro _; rfl
  | cons x xs ih =>
    intro h
    have hx : x = c := h x (List.mem_cons_self x xs)
    show xs.foldl min (min c x) = c
    rw [hx, min_self]
    exact ih (fun y hy => h y (List.mem_cons_of_mem x hy))

/-- Folding max over a list of copies of c, starting at c, stays at c. -/
theorem foldl_max_all_eq (c : ℚ) :
    ∀ l : List ℚ, (∀ x ∈ l, x = c) → l.foldl max c = c := by
  intro l
  induction l with
  | nil => intro _; rfl
  | cons x xs ih =>
    intro h
    have hx : x = c := h x (List.mem_cons_self x xs)
    show xs.foldl max (max c x) = c
    rw [hx, max_self]
    exact ih (fun y hy => h y (List.mem_cons_of_mem x hy))

/-- listMin of a nonempty constant list is the constant. -/
theorem listMin_const (c : ℚ) (l : List ℚ) (h : ∀ x ∈ l, x = c)
    (hne : l ≠ []) : listMin l = c := by
  cases l with
  | nil => exact absurd rfl hne
  | cons x xs =>
    have hx : x = c := h x (List.mem_cons_self x xs)
    show xs.foldl min x = c
    rw [hx]
    exact foldl_min_all_eq c xs (fun y hy => h y (List.mem_cons_of_mem x hy))

/-- listMax of a nonempty constant list is the constant. -/
theorem listMax_const (c : ℚ) (l : List ℚ) (h : ∀ x ∈ l, x = c)
    (hne : l ≠ []) : listMax l = c := by
  cases l with
  | nil => exact absurd rfl hne
  | cons x xs =>
    have hx : x = c := h x (List.mem_cons_self x xs)
    show xs.foldl max x = c
    rw [hx]
    exact foldl_max_all_eq c xs (fun y hy => h y (List.mem_cons_of_mem x hy))

end Py

namespace GenerateData

/-- An integer draw satisfies its bounds as a rational. -/
theorem isRandint_bounds (lo hi : Int) (x : ℚ) (h : isRandint lo hi x) :
    (lo : ℚ) ≤ x ∧ x < (hi : ℚ) := by
  obtain ⟨hden, h1, h2⟩ := h
  have hx : (x.num : ℚ) = x := by
    have hd := Rat.num_div_den x
    rw [hden] at hd
    simpa using hd
  constructor
  · rw [← hx]; exact_mod_cast h1
  · rw [← hx]; exact_mod_cast h2

/-- When the empirical minimum is strictly below the maximum, the
rescaled frame exists, has the same length, and every pixel lands between
0.7 and 1.0. -/
theorem rescale_bounds (data : List ℚ)
    (hlt : Py.listMin data < Py.listMax data) :
    ∃ l, rescale data = some l ∧ l.length = data.length ∧
      ∀ x ∈ l, 7 / 10 ≤ x ∧ x ≤ 1 := by
  have hrpos : 0 < ptp data := sub_pos.mpr hlt
  have hr : ptp data ≠ 0 := ne_of_gt hrpos
  refine ⟨data.map (fun x => (x - Py.listMin data) / ptp data * (3 / 10) + 7 / 10),
    ?_, by simp, ?_⟩
  · simp [rescale, hr]
  · intro y hy
    obtain ⟨x, hx, rfl⟩ := List.mem_map.mp hy
    have h1 : Py.listMin data ≤ x := Py.listMin_le data x hx
    have h2 : x ≤ Py.listMax data := Py.listMax_ge data x hx
    have hdiv0 : 0 ≤ (x - Py.listMin data) / ptp data :=
      div_nonneg (sub_nonneg.mpr h1) hrpos.le
    have hdiv1 : (x - Py.listMin data) / ptp data ≤ 1 := by
      rw [div_le_one hrpos]
      unfold ptp
      linarith
    constructor
    · nlinarith
    · nlinarith

/-- On a nonempty constant frame the spread is zero and the unguarded
division branch is reached: rescale yields no well-defined frame. -/
theorem rescale_const_none (data : List ℚ) (c : ℚ) (hne : data ≠ [])
    (hconst : ∀ x ∈ data, x = c) : rescale data = none := by
  have h0 : ptp data = 0 := by
    unfold ptp
    rw [Py.listMax_const c data hconst hne, Py.listMin_const c data hconst hne]
    ring
  simp [rescale, h0]

/-- The flat preset on a nonconstant draw: the rescaled frame exists and
sits inside the target band. -/
theorem generate_flat_range (main bias : List ℚ)
    (hlt : Py.listMin main < Py.listMax main) :
    ∃ l, generate_flat main bias = some l ∧ l.length = main.length ∧
      ∀ x ∈ l, 7 / 10 ≤ x ∧ x ≤ 1 := by
  have h := rescale_bounds main hlt
  simpa [generate_flat, generate_frame] using h

/-- Every element of an elementwise sum splits into a pixel of each
summand list. -/
theorem exists_of_mem_zipWith_add (main : List ℚ) :
    ∀ (bias : List ℚ) (x : ℚ),
      x ∈ List.zipWith (fun a b => a + b) main bias →
      ∃ a ∈ main, ∃ b ∈ bias, x = a + b := by
  induction main with
  | nil => intro bias x hx; simp at hx
  | cons a as ih =>
    intro bias x hx
    cases bias with
    | nil => simp at hx
    | cons b bs =>
      rcases List.mem_cons.mp (by simpa using hx) with h | h
      · exact ⟨a, List.mem_cons_self a as, b, List.mem_cons_self b bs, h⟩
      · obtain ⟨a2, ha2, b2, hb2, hx2⟩ := ih bs x h
        exact ⟨a2, List.mem_cons_of_mem a ha2, b2, List.mem_cons_of_mem b hb2, hx2⟩

/-- Elementwise sum of two constant lists of the same length. -/
theorem zipWith_add_replicate (n : Nat) (a b : ℚ) :
    List.zipWith (fun x y => x + y) (List.replicate n a) (List.replicate n b) =
      List.replicate n (a + b) := by
  induction n with
  | zero => rfl
  | succ n ih => simp [List.replicate_succ, ih]

/-- The saturated example draws satisfy the image-preset contract. -/
theorem hotDraws_valid :
    ValidDraws false true RAW_IMAGE_SHAPE hotMain hotBias := by
  refine ⟨?_, ?_, ?_⟩
  · rw [hotMain, List.length_replicate]; rfl
  · intro _
    constructor
    · rw [hotBias, List.length_replicate]; rfl
    · intro x hx
      rw [List.eq_of_mem_replicate hx]
      exact ⟨rfl, by norm_num, by norm_num [BIAS_LEVEL]⟩
  · intro x hx
    rw [List.eq_of_mem_replicate hx]
    constructor <;> norm_num [BIAS_LEVEL, isUniform]

end GenerateData

namespace GenerateData

/-- The constant frame is not empty. -/
theorem constFrame_ne_nil : constFrame ≠ [] := by
  intro h0
  have hlen := congrArg List.length h0
  rw [constFrame, List.length_replicate] at hlen
  norm_num at hlen

/-- The constant frame is a legitimate flat-preset draw: every pixel is
inside the continuous range. -/
theorem constFrame_valid_flat :
    ValidDraws false false RAW_IMAGE_SHAPE constFrame [] := by
  refine ⟨?_, ?_, ?_⟩
  · rw [constFrame, List.length_replicate]; rfl
  · intro hfalse
    exact absurd hfalse (by decide)
  · intro x hx
    rw [List.eq_of_mem_replicate hx]
    exact ⟨by norm_num, by norm_num⟩

/-- The constant frame is a legitimate bias-preset draw: every pixel is
an integer inside the readout range. -/
theorem constFrame_valid_bias :
    ValidDraws true false RAW_IMAGE_SHAPE constFrame [] := by
  refine ⟨?_, ?_, ?_⟩
  · rw [constFrame, List.length_replicate]; rfl
  · intro hfalse
    exact absurd hfalse (by decide)
  · intro x hx
    rw [List.eq_of_mem_replicate hx]
    exact ⟨rfl, by norm_num, by norm_num⟩

/-- The step frame is a legitimate flat-preset draw. -/
theorem stepFrame_valid_flat :
    ValidDraws false false RAW_IMAGE_SHAPE stepFrame [] := by
  refine ⟨?_, ?_, ?_⟩
  · rw [stepFrame, List.length_cons, List.length_replicate]; rfl
  · intro hfalse
    exact absurd hfalse (by decide)
  · intro x hx
    rcases List.mem_cons.mp hx with h | h
    · subst h
      exact ⟨le_refl 0, by norm_num⟩
    · rw [List.eq_of_mem_replicate h]
      exact ⟨by norm_num, by norm_num⟩

/-- The step frame is nonconstant: its minimum is strictly below its
maximum. -/
theorem stepFrame_nonconstant : Py.listMin stepFrame < Py.listMax stepFrame := by
  have h0 : (0 : ℚ) ∈ stepFrame := List.mem_cons_self _ _
  have h1 : (1000 : ℚ) ∈ stepFrame :=
    List.mem_cons_of_mem _ (List.mem_replicate.mpr ⟨by norm_num, rfl⟩)
  have ha := Py.listMin_le stepFrame 0 h0
  have hb := Py.listMax_ge stepFrame 1000 h1
  linarith

/-- The flat preset is the rescaling of its base draw. -/
theorem generate_flat_eq (main bias : List ℚ) :
    generate_flat main bias = rescale main := rfl

end GenerateData

/-- C6: for every draw within the contracts of the bias preset (integer
readout data, no added bias, no rescale), the bias preset writes the drawn
frame unchanged and every pixel lies within the combined range of the
bias distribution and the readout distribution, taken as the union of the
two integer draw ranges (0 to BIAS_LEVEL and 0 to the 16-bit limit). -/
theorem bias_preset_range (main bias : List ℚ)
    (h : GenerateData.ValidDraws true false GenerateData.RAW_IMAGE_SHAPE
      main bias) :
    ∃ l, GenerateData.generate_bias main bias = some l ∧
      ∀ x ∈ l, GenerateData.combined_range x := by
  refine ⟨main, rfl, ?_⟩
  intro x hx
  have hr : ∀ y ∈ main, GenerateData.isRandint 0 (2 ^ 16 - 1) y := h.2.2
  have hb := GenerateData.isRandint_bounds 0 (2 ^ 16 - 1) x (hr x hx)
  right
  constructor
  · exact_mod_cast hb.1
  · have h2 := hb.2
    push_cast at h2
    norm_num
    exact h2

/-- Witness for C6 at the constant in-range integer frame. -/
theorem bias_preset_range_witness :
    ∃ l, GenerateData.generate_bias GenerateData.constFrame [] = some l ∧
      ∀ x ∈ l, GenerateData.combined_range x :=
  bias_preset_range GenerateData.constFrame [] GenerateData.constFrame_valid_bias

/-- C10: for every draw within the contracts of the image preset (a
continuous base draw from BIAS_LEVEL to the 16-bit limit plus an integer
bias draw below BIAS_LEVEL), every pixel of the science frame lies in the
half-open range from BIAS_LEVEL to the 16-bit limit plus BIAS_LEVEL; and
some in-contract draw produces pixels strictly above the nominal 16-bit
maximum. -/
theorem image_range_exceeds_16bit (main bias : List ℚ)
    (h : GenerateData.ValidDraws false true GenerateData.RAW_IMAGE_SHAPE
      main bias) :
    (∃ l, GenerateData.generate_image main bias = some l ∧
      ∀ x ∈ l, (GenerateData.BIAS_LEVEL : ℚ) ≤ x ∧
        x < 2 ^ 16 - 1 + (GenerateData.BIAS_LEVEL : ℚ)) ∧
    (∃ m2 b2,
      GenerateData.ValidDraws false true GenerateData.RAW_IMAGE_SHAPE m2 b2 ∧
      ∃ l2, GenerateData.generate_image m2 b2 = some l2 ∧
        ∃ x ∈ l2, 2 ^ 16 - 1 < x) := by
  constructor
  · refine ⟨List.zipWith (fun a b => a + b) main bias, rfl, ?_⟩
    intro x hx
    obtain ⟨a, ha, b, hb, rfl⟩ :=
      GenerateData.exists_of_mem_zipWith_add main bias x hx
    have hmain : ∀ y ∈ main,
        GenerateData.isUniform (GenerateData.BIAS_LEVEL : ℚ) (2 ^ 16 - 1) y :=
      h.2.2
    have hbias := (h.2.1 rfl).2
    obtain ⟨hA1, hA2⟩ := hmain a ha
    obtain ⟨hB1, hB2⟩ := GenerateData.isRandint_bounds 0 GenerateData.BIAS_LEVEL
      b (hbias b hb)
    have hb0 : (0 : ℚ) ≤ b := by exact_mod_cast hB1
    exact ⟨by linarith, by linarith⟩
  · refine ⟨GenerateData.hotMain, GenerateData.hotBias,
      GenerateData.hotDraws_valid,
      List.replicate (2048 * 2048) (66999 : ℚ), ?_, ?_⟩
    · show some (List.zipWith (fun a b => a + b)
          GenerateData.hotMain GenerateData.hotBias) =
        some (List.replicate (2048 * 2048) (66999 : ℚ))
      rw [GenerateData.hotMain, GenerateData.hotBias,
        GenerateData.zipWith_add_replicate]
      norm_num
    · refine ⟨66999, List.mem_replicate.mpr ⟨by norm_num, rfl⟩, by norm_num⟩

/-- Witness for C10 at the saturated example draws. -/
theorem image_range_exceeds_16bit_witness :
    ∃ l, GenerateData.generate_image GenerateData.hotMain GenerateData.hotBias =
        some l ∧
      ∀ x ∈ l, (GenerateData.BIAS_LEVEL : ℚ) ≤ x ∧
        x < 2 ^ 16 - 1 + (GenerateData.BIAS_LEVEL : ℚ) :=
  (image_range_exceeds_16bit GenerateData.hotMain GenerateData.hotBias
    GenerateData.hotDraws_valid).1

/-- C5 counterexample: the constant frame is an in-range flat-preset draw,
yet the rescaling step divides by its zero empirical spread, so the
preset yields no well-defined rescaled frame at this input (in numpy
floats every pixel becomes NaN) — in particular no frame whose pixels,
minimum included, lie between 0.7 and 1.0. The for-every-seed claim
therefore fails on the degenerate constant draw. -/
theorem flat_range_cex :
    GenerateData.ValidDraws false false GenerateData.RAW_IMAGE_SHAPE
      GenerateData.constFrame [] ∧
    ¬ ∃ l, GenerateData.generate_flat GenerateData.constFrame [] = some l ∧
        ∀ x ∈ l, 7 / 10 ≤ x ∧ x ≤ 1 := by
  refine ⟨GenerateData.constFrame_valid_flat, ?_⟩
  rintro ⟨l, hl, -⟩
  rw [GenerateData.generate_flat_eq,
    GenerateData.rescale_const_none GenerateData.constFrame 1000
      GenerateData.constFrame_ne_nil
      (fun x hx => List.eq_of_mem_replicate hx)] at hl
  cases hl

/-- C5 (amended): for every flat-preset draw within the uniform range
whose drawn frame is not constant — empirical minimum strictly below the
maximum, the precondition the counterexample forces on the unguarded
division — the rescaled frame exists and its minimum is at least 0.7 and
its maximum at most 1.0, every pixel lying in that band. -/
theorem flat_range_nonconstant (main bias : List ℚ)
    (h : GenerateData.ValidDraws false false GenerateData.RAW_IMAGE_SHAPE
      main bias)
    (hnc : Py.listMin main < Py.listMax main) :
    ∃ l, GenerateData.generate_flat main bias = some l ∧
      7 / 10 ≤ Py.listMin l ∧ Py.listMax l ≤ 1 ∧
      ∀ x ∈ l, 7 / 10 ≤ x ∧ x ≤ 1 := by
  obtain ⟨l, hl, hlen, hbounds⟩ :=
    GenerateData.generate_flat_range main bias hnc
  have hlen0 : main.length ≠ 0 := by
    rw [h.1]
    decide
  have hne : l ≠ [] := by
    intro h0
    rw [h0] at hlen
    exact hlen0 (by simpa using hlen.symm)
  refine ⟨l, hl, ?_, ?_, hbounds⟩
  · exact (hbounds _ (Py.listMin_mem l hne)).1
  · exact (hbounds _ (Py.listMax_mem l hne)).2

/-- Witness for the amended C5 at the nonconstant step frame. -/
theorem flat_range_nonconstant_witness :
    ∃ l, GenerateData.generate_flat GenerateData.stepFrame [] = some l ∧
      7 / 10 ≤ Py.listMin l ∧ Py.listMax l ≤ 1 ∧
      ∀ x ∈ l, 7 / 10 ≤ x ∧ x ≤ 1 :=
  flat_range_nonconstant GenerateData.stepFrame []
    GenerateData.stepFrame_valid_flat GenerateData.stepFrame_nonconstant

/-- C8: the normalise step divides by the empirical peak-to-peak spread
with no guard against zero. On a nonempty constant frame the spread is
exactly zero and the division-by-zero branch is reached, so the flat
preset produces no well-defined frame there (NaN pixels in numpy floats);
on any frame whose minimum is strictly below its maximum the rescaled
output is well-defined and every pixel lies inside 0.7 to 1.0. -/
theorem normalise_no_zero_guard (main bias m2 b2 : List ℚ) (c : ℚ)
    (hconst : ∀ x ∈ main, x = c) (hne : main ≠ [])
    (hnc : Py.listMin m2 < Py.listMax m2) :
    GenerateData.ptp main = 0 ∧
    GenerateData.generate_flat main bias = none ∧
    (∃ l, GenerateData.generate_flat m2 b2 = some l ∧
      ∀ x ∈ l, 7 / 10 ≤ x ∧ x ≤ 1) := by
  refine ⟨?_, ?_, ?_⟩
  · unfold GenerateData.ptp
    rw [Py.listMax_const c main hconst hne, Py.listMin_const c main hconst hne]
    ring
  · exact GenerateData.rescale_const_none main c hne hconst
  · obtain ⟨l, hl, -, hb⟩ := GenerateData.generate_flat_range m2 b2 hnc
    exact ⟨l, hl, hb⟩

/-- Witness for C8 at the constant frame (zero spread) and the step frame
(nonconstant). -/
theorem normalise_no_zero_guard_witness :
    GenerateData.ptp GenerateData.constFrame = 0 ∧
    GenerateData.generate_flat GenerateData.constFrame [] = none ∧
    (∃ l, GenerateData.generate_flat GenerateData.stepFrame [] = some l ∧
      ∀ x ∈ l, 7 / 10 ≤ x ∧ x ≤ 1) :=
  normalise_no_zero_guard GenerateData.constFrame []
    GenerateData.stepFrame [] 1000
    (fun _x hx => List.eq_of_mem_replicate hx)
    GenerateData.constFrame_ne_nil
    GenerateData.stepFrame_nonconstant

/-- C7: timeit runs the measured function exactly 64 times, recording one
wall-clock duration per iteration, and the reported value timeit(main,
n=64) is the minimum of those 64 samples — it is one of the samples and
below every sample; when the clock readings never decrease, every sample,
hence also the reported minimum, is nonnegative. -/
theorem timeit_min_of_64 (clock : Nat → ℚ)
    (hmono : ∀ i j : Nat, i ≤ j → clock i ≤ clock j) :
    (PythonRun.timesList clock 64).length = 64 ∧
    PythonRun.min_time clock = Py.listMin (PythonRun.timesList clock 64) ∧
    PythonRun.min_time clock ∈ PythonRun.timesList clock 64 ∧
    (∀ t ∈ PythonRun.timesList clock 64, PythonRun.min_time clock ≤ t) ∧
    (∀ t ∈ PythonRun.timesList clock 64, 0 ≤ t) ∧
    0 ≤ PythonRun.min_time clock := by
  have hlen : (PythonRun.timesList clock 64).length = 64 := by
    simp [PythonRun.timesList]
  have hne : PythonRun.timesList clock 64 ≠ [] := by
    intro h0
    rw [h0] at hlen
    simp at hlen
  have hnonneg : ∀ t ∈ PythonRun.timesList clock 64, 0 ≤ t := by
    intro t ht
    obtain ⟨i, -, rfl⟩ := List.mem_map.mp ht
    have hstep := hmono (2 * i) (2 * i + 1) (Nat.le_succ _)
    have : (0 : ℚ) ≤ clock (2 * i + 1) - clock (2 * i) := by linarith
    simpa [PythonRun.sample] using this
  refine ⟨hlen, rfl, Py.listMin_mem _ hne,
    fun t ht => Py.listMin_le _ t ht, hnonneg, ?_⟩
  exact hnonneg _ (Py.listMin_mem _ hne)

/-- Witness for C7 at the identity clock, whose readings are
nondecreasing. -/
theorem timeit_min_of_64_witness :
    0 ≤ PythonRun.min_time (fun i => (i : ℚ)) :=
  (timeit_min_of_64 (fun i => (i : ℚ))
    (fun i j hij => by show (i : ℚ) ≤ (j : ℚ); exact_mod_cast hij)).2.2.2.2.2
